import Mathlib

/-!
Verification of the cluster-comparison utilities (compare_clusters.py,
make_json_clustering.py, compare_nc_scores.py) of the nc_helpers repository.

The Python source is shallowly embedded: JSON-like values become the
inductive `PyVal`, Python dicts become insertion-ordered association lists
with the update semantics of `pySet` (assignment to an existing key keeps
its position and replaces its value), and code that can raise returns
`Option`.  Python's `str.isalpha` is modelled on ASCII identifiers by
`Char.isAlpha`; `str.split` with no argument by `pySplit`; comparison of
strings by code-point-lexicographic `pyStrLt`.
-/

namespace NC

/-- A JSON-like value as loaded by `json.load`, restricted to the shapes
the cluster files use: strings, numbers and (nested) arrays.  Objects only
occur at top level and are modelled as insertion-ordered association
lists. -/
inductive PyVal where
  | str (s : String)
  | int (n : Int)
  | list (xs : List PyVal)

/-- A top-level JSON object / Python dict with string keys. -/
abbrev PyDict := List (String × PyVal)

/-- `s.split(".", 1)` on the character list: `some (pre, post)` when a dot
occurs (split at the first one), `none` when no dot occurs. -/
def splitOnceAux : List Char → Option (List Char × List Char)
  | [] => none
  | c :: cs =>
    if c = '.' then some ([], cs)
    else
      match splitOnceAux cs with
      | some (pre, post) => some (c :: pre, post)
      | none => none

/-- Embeds `strip_species_prefix` of compare_clusters.py: split on the first
dot; if that yields two parts and the first is non-empty and all-alphabetic,
return the second part, else return the string unchanged. -/
def strip_species_prefix (s : String) : String :=
  match splitOnceAux s.data with
  | some (pre, post) =>
      if pre ≠ [] ∧ pre.all Char.isAlpha then String.mk post else s
  | none => s

/-- The detection condition of `strip_species_prefix`: the part before the
first dot exists, is non-empty and is all-alphabetic. -/
def hasSpeciesCode (s : String) : Bool :=
  match splitOnceAux s.data with
  | some (pre, _) => decide (pre ≠ []) && pre.all Char.isAlpha
  | none => false

theorem strip_of_not_hasSpeciesCode (s : String) (h : hasSpeciesCode s = false) :
    strip_species_prefix s = s := by
  unfold strip_species_prefix
  unfold hasSpeciesCode at h
  cases hsp : splitOnceAux s.data with
  | none => rfl
  | some pp =>
      obtain ⟨pre, post⟩ := pp
      rw [hsp] at h
      simp only [Bool.and_eq_false_iff, decide_eq_false_iff_not, not_not] at h
      rcases h with h | h
      · simp [h]
      · simp [h]

/-! ## Python dictionaries as insertion-ordered association lists -/

/-- Lookup in a Python dict: the value of the first (and, in a dict built
by `pySet`, only) binding of `k`. -/
def pyGet {κ ν : Type} [DecidableEq κ] (d : List (κ × ν)) (k : κ) : Option ν :=
  (d.find? (fun p => decide (p.1 = k))).map Prod.snd

/-- Assignment `d[k] = v` in a Python dict: replaces the value of an
existing binding in place, otherwise appends a new binding. -/
def pySet {κ ν : Type} [DecidableEq κ] (d : List (κ × ν)) (k : κ) (v : ν) :
    List (κ × ν) :=
  if d.any (fun p => decide (p.1 = k)) then
    d.map (fun p => if p.1 = k then (k, v) else p)
  else d ++ [(k, v)]

/-- A sequence of dict assignments, first to last. -/
def applyWrites {κ ν : Type} [DecidableEq κ] (ws : List (κ × ν))
    (d : List (κ × ν)) : List (κ × ν) :=
  ws.foldl (fun acc p => pySet acc p.1 p.2) d

/-- The value of the last write to `k` in a write sequence, if any. -/
def lastWrite {κ ν : Type} [DecidableEq κ] : List (κ × ν) → κ → Option ν
  | [], _ => none
  | w :: ws, k =>
    match lastWrite ws k with
    | some v => some v
    | none => if w.1 = k then some w.2 else none

theorem pyGet_cons_of_eq {κ ν : Type} [DecidableEq κ] (p : κ × ν)
    (d : List (κ × ν)) (k : κ) (h : p.1 = k) : pyGet (p :: d) k = some p.2 := by
  unfold pyGet
  rw [List.find?_cons, decide_eq_true h]
  rfl

theorem pyGet_cons_of_ne {κ ν : Type} [DecidableEq κ] (p : κ × ν)
    (d : List (κ × ν)) (k : κ) (h : ¬ p.1 = k) : pyGet (p :: d) k = pyGet d k := by
  unfold pyGet
  rw [List.find?_cons, decide_eq_false h]

theorem pyGet_subst_other {κ ν : Type} [DecidableEq κ] (d : List (κ × ν))
    (k' k : κ) (v : ν) (hne : k' ≠ k) :
    pyGet (d.map (fun p => if p.1 = k' then (k', v) else p)) k = pyGet d k := by
  induction d with
  | nil => rfl
  | cons p rest ih =>
      by_cases hp : p.1 = k'
      · have hpk : ¬ p.1 = k := fun h => hne (h ▸ hp.symm ▸ rfl)
        rw [List.map_cons, if_pos hp, pyGet_cons_of_ne _ _ _ hne,
          pyGet_cons_of_ne _ _ _ hpk]
        exact ih
      · rw [List.map_cons, if_neg hp]
        by_cases hpk : p.1 = k
        · rw [pyGet_cons_of_eq _ _ _ hpk, pyGet_cons_of_eq _ _ _ hpk]
        · rw [pyGet_cons_of_ne _ _ _ hpk, pyGet_cons_of_ne _ _ _ hpk]
          exact ih

theorem pyGet_subst_same {κ ν : Type} [DecidableEq κ] (d : List (κ × ν))
    (k : κ) (v : ν) :
    pyGet (d.map (fun p => if p.1 = k then (k, v) else p)) k =
      if d.any (fun p => decide (p.1 = k)) then some v else none := by
  induction d with
  | nil => rfl
  | cons p rest ih =>
      by_cases hp : p.1 = k
      · rw [List.map_cons, if_pos hp, pyGet_cons_of_eq _ _ _ rfl]
        simp [hp]
      · rw [List.map_cons, if_neg hp, pyGet_cons_of_ne _ _ _ hp, ih,
          List.any_cons, decide_eq_false hp, Bool.false_or]

theorem pyGet_append_single {κ ν : Type} [DecidableEq κ] (d : List (κ × ν))
    (k' k : κ) (v : ν) :
    pyGet (d ++ [(k', v)]) k =
      match pyGet d k with
      | some w => some w
      | none => if k' = k then some v else none := by
  unfold pyGet
  rw [List.find?_append]
  cases hfd : d.find? (fun p => decide (p.1 = k)) with
  | some p => rfl
  | none =>
      by_cases hk : k' = k
      · simp [List.find?_cons, hk]
      · simp [List.find?_cons, hk]

theorem pyGet_none_of_not_any {κ ν : Type} [DecidableEq κ] (d : List (κ × ν))
    (k : κ) (h : d.any (fun p => decide (p.1 = k)) = false) : pyGet d k = none := by
  unfold pyGet
  rw [List.find?_eq_none.mpr]
  · rfl
  · intro p hp hdec
    rw [List.any_eq_false] at h
    exact absurd hdec (h p hp)

theorem pyGet_pySet_same {κ ν : Type} [DecidableEq κ] (d : List (κ × ν))
    (k : κ) (v : ν) : pyGet (pySet d k v) k = some v := by
  unfold pySet
  by_cases hany : d.any (fun p => decide (p.1 = k)) = true
  · rw [if_pos hany, pyGet_subst_same, if_pos hany]
  · have hf : d.any (fun p => decide (p.1 = k)) = false := by
      cases hc : d.any (fun p => decide (p.1 = k)) with
      | true => exact absurd hc hany
      | false => rfl
    rw [if_neg hany, pyGet_append_single, pyGet_none_of_not_any d k hf]
    simp

theorem pyGet_pySet_other {κ ν : Type} [DecidableEq κ] (d : List (κ × ν))
    (k' k : κ) (v : ν) (hne : k' ≠ k) : pyGet (pySet d k' v) k = pyGet d k := by
  unfold pySet
  by_cases hany : d.any (fun p => decide (p.1 = k')) = true
  · rw [if_pos hany, pyGet_subst_other d k' k v hne]
  · rw [if_neg hany, pyGet_append_single]
    cases pyGet d k with
    | some w => rfl
    | none => simp [if_neg hne]

theorem pyGet_applyWrites {κ ν : Type} [DecidableEq κ] (ws : List (κ × ν))
    (d : List (κ × ν)) (k : κ) :
    pyGet (applyWrites ws d) k =
      match lastWrite ws k with
      | some v => some v
      | none => pyGet d k := by
  induction ws generalizing d with
  | nil => rfl
  | cons w rest ih =>
      show pyGet (applyWrites rest (pySet d w.1 w.2)) k = _
      rw [ih]
      cases hlw : lastWrite rest k with
      | some v => simp [lastWrite, hlw]
      | none =>
          by_cases hk : w.1 = k
          · subst hk
            simp [lastWrite, hlw, pyGet_pySet_same]
          · simp [lastWrite, hlw, hk, pyGet_pySet_other d w.1 k w.2 hk]

theorem lastWrite_eq_none_of_not_mem {κ ν : Type} [DecidableEq κ]
    (ws : List (κ × ν)) (k : κ) (h : k ∉ ws.map Prod.fst) : lastWrite ws k = none := by
  induction ws with
  | nil => rfl
  | cons w rest ih =>
      simp only [List.map_cons, List.mem_cons, not_or] at h
      rw [lastWrite, ih h.2, if_neg (fun hk => h.1 hk.symm)]

theorem lastWrite_append {κ ν : Type} [DecidableEq κ]
    (ws₁ ws₂ : List (κ × ν)) (k : κ) :
    lastWrite (ws₁ ++ ws₂) k =
      match lastWrite ws₂ k with
      | some v => some v
      | none => lastWrite ws₁ k := by
  induction ws₁ with
  | nil =>
      rw [List.nil_append]
      cases hl : lastWrite ws₂ k with
      | some v => rfl
      | none => rfl
  | cons w rest ih =>
      rw [List.cons_append, lastWrite, ih, lastWrite]
      cases lastWrite ws₂ k <;> cases lastWrite rest k <;> rfl

theorem lastWrite_of_nodup_mem {κ ν : Type} [DecidableEq κ]
    (ws : List (κ × ν)) (k : κ) (v : ν)
    (hnd : (ws.map Prod.fst).Nodup) (hmem : (k, v) ∈ ws) :
    lastWrite ws k = some v := by
  induction ws with
  | nil => exact absurd hmem (List.not_mem_nil _)
  | cons w rest ih =>
      rw [List.map_cons, List.nodup_cons] at hnd
      rcases List.mem_cons.mp hmem with h | h
      · subst h
        rw [lastWrite, lastWrite_eq_none_of_not_mem rest k hnd.1, if_pos rfl]
      · rw [lastWrite, ih hnd.2 h]

theorem lastWrite_const_label {κ ν : Type} [DecidableEq κ]
    (ws : List (κ × ν)) (k : κ) (lab : ν)
    (hlab : ∀ p ∈ ws, p.2 = lab) (hmem : k ∈ ws.map Prod.fst) :
    lastWrite ws k = some lab := by
  induction ws with
  | nil => exact absurd hmem (List.not_mem_nil _)
  | cons w rest ih =>
      rw [lastWrite]
      by_cases hr : k ∈ rest.map Prod.fst
      · rw [ih (fun p hp => hlab p (List.mem_cons_of_mem w hp)) hr]
      · rw [lastWrite_eq_none_of_not_mem rest k hr]
        rcases List.mem_cons.mp hmem with h | h
        · rw [if_pos h.symm, hlab w (List.mem_cons_self w rest)]
        · exact absurd h hr

theorem pySet_fresh {κ ν : Type} [DecidableEq κ] (d : List (κ × ν))
    (k : κ) (v : ν) (h : k ∉ d.map Prod.fst) : pySet d k v = d ++ [(k, v)] := by
  unfold pySet
  rw [if_neg]
  intro hany
  rcases List.any_eq_true.mp hany with ⟨p, hp, hdec⟩
  exact h (List.mem_map.mpr ⟨p, hp, of_decide_eq_true hdec⟩)

theorem applyWrites_fresh {κ ν : Type} [DecidableEq κ] (ws d : List (κ × ν))
    (hnd : (ws.map Prod.fst).Nodup)
    (hdisj : ∀ k, k ∈ ws.map Prod.fst → k ∉ d.map Prod.fst) :
    applyWrites ws d = d ++ ws := by
  induction ws generalizing d with
  | nil => simp [applyWrites]
  | cons w rest ih =>
      rw [List.map_cons, List.nodup_cons] at hnd
      show applyWrites rest (pySet d w.1 w.2) = d ++ w :: rest
      rw [pySet_fresh d w.1 w.2
          (hdisj w.1 (by simp))]
      rw [ih (d ++ [(w.1, w.2)]) hnd.2]
      · simp
      · intro k hk
        rw [List.map_append, List.mem_append]
        rintro (hkd | hkw)
        · exact hdisj k (by simp [hk]) hkd
        · simp only [List.map_cons, List.map_nil, List.mem_singleton] at hkw
          exact hnd.1 (hkw ▸ hk)

theorem applyWrites_nil_of_nodup {κ ν : Type} [DecidableEq κ] (ws : List (κ × ν))
    (hnd : (ws.map Prod.fst).Nodup) : applyWrites ws [] = ws := by
  rw [applyWrites_fresh ws [] hnd (by simp)]
  rfl

theorem pySet_keys_nodup {κ ν : Type} [DecidableEq κ] (d : List (κ × ν))
    (k : κ) (v : ν) (hnd : (d.map Prod.fst).Nodup) :
    ((pySet d k v).map Prod.fst).Nodup := by
  unfold pySet
  by_cases hany : d.any (fun p => decide (p.1 = k)) = true
  · rw [if_pos hany]
    have hkeys : (d.map (fun p => if p.1 = k then (k, v) else p)).map Prod.fst
        = d.map Prod.fst := by
      rw [List.map_map]
      apply List.map_congr_left
      intro p _
      by_cases hp : p.1 = k
      · simp [hp]
      · simp [hp]
    rw [hkeys]
    exact hnd
  · rw [if_neg hany, List.map_append]
    rw [List.nodup_append]
    refine ⟨hnd, List.nodup_singleton k, ?_⟩
    intro a ha hb
    simp only [List.map_cons, List.map_nil, List.mem_singleton] at hb
    subst hb
    rcases List.mem_map.mp ha with ⟨p, hp, hpk⟩
    exact hany (List.any_eq_true.mpr ⟨p, hp, decide_eq_true hpk⟩)

theorem applyWrites_keys_nodup {κ ν : Type} [DecidableEq κ] (ws d : List (κ × ν))
    (hnd : (d.map Prod.fst).Nodup) : ((applyWrites ws d).map Prod.fst).Nodup := by
  induction ws generalizing d with
  | nil => exact hnd
  | cons w rest ih =>
      exact ih (pySet d w.1 w.2) (pySet_keys_nodup d w.1 w.2 hnd)

/-! ## invert_clusters of compare_clusters.py -/

/-- A JSON value as a Python string, `none` when it is not a string (so a
string method on it raises, modelled by propagating `none`). -/
def asStr : PyVal → Option String
  | PyVal.str s => some s
  | _ => none

/-- Iteration `for seq in cluster` over a JSON value: a list yields its
elements, a string yields its characters as one-character strings (Python
iterates strings), a number raises TypeError (`none`). -/
def pyIter : PyVal → Option (List PyVal)
  | PyVal.list xs => some xs
  | PyVal.str s => some (s.data.map (fun c => PyVal.str (String.mk [c])))
  | PyVal.int _ => none

/-- Inserting one cluster's members into the accumulating dict: each member
is normalized and assigned the cluster's label, later insertions
overwriting earlier ones; a non-string member raises (`none`). -/
def insertMembers (label : String) :
    List PyVal → List (String × String) → Option (List (String × String))
  | [], acc => some acc
  | m :: rest, acc =>
    match asStr m with
    | some s => insertMembers label rest (pySet acc ( strip_species_prefix s) label)
    | none => none

/-- The components branch of invert_clusters: clusters labelled by their
stringified zero-based position, starting at `i`. -/
def insertComponents :
    List PyVal → Nat → List (String × String) → Option (List (String × String))
  | [], _, acc => some acc
  | c :: rest, i, acc =>
    match pyIter c with
    | some members =>
      match insertMembers (toString i) members acc with
      | some acc2 => insertComponents rest (i + 1) acc2
      | none => none
    | none => none

/-- The orthogroups branch of invert_clusters: a key with a list value is a
cluster labelled by the key; any other value is skipped as metadata. -/
def insertOrthogroups :
    PyDict → List (String × String) → Option (List (String × String))
  | [], acc => some acc
  | (k, PyVal.list members) :: rest, acc =>
    match insertMembers k members acc with
    | some acc2 => insertOrthogroups rest acc2
    | none => none
  | _ :: rest, acc => insertOrthogroups rest acc

/-- Embeds invert_clusters of compare_clusters.py: the components format is
used when the key "components" holds a list, else every list-valued key is
a cluster.  `none` models a raised exception. -/
def invert_clusters (data : PyDict) : Option (List (String × String)) :=
  match pyGet data "components" with
  | some (PyVal.list clusters) => insertComponents clusters 0 []
  | _ => insertOrthogroups data []

/-- The (normalized member, label) assignments the components branch makes,
in order, for clusters given as lists of member strings, the first cluster
labelled `toString i`. -/
def componentWrites : List (List String) → Nat → List (String × String)
  | [], _ => []
  | ns :: rest, i =>
      ns.map (fun m => ( strip_species_prefix m, toString i)) ++
        componentWrites rest (i + 1)

/-- The (normalized member, label) assignments the orthogroups branch
makes, in order. -/
def orthoWrites : PyDict → List (String × String)
  | [] => []
  | (k, PyVal.list xs) :: rest =>
      (xs.filterMap asStr).map (fun s => ( strip_species_prefix s, k)) ++
        orthoWrites rest
  | _ :: rest => orthoWrites rest

theorem applyWrites_append {κ ν : Type} [DecidableEq κ]
    (ws₁ ws₂ : List (κ × ν)) (d : List (κ × ν)) :
    applyWrites (ws₁ ++ ws₂) d = applyWrites ws₂ (applyWrites ws₁ d) :=
  List.foldl_append _ _ _ _

theorem insertMembers_all_str (label : String) (xs : List PyVal)
    (acc : List (String × String))
    (hstr : ∀ v ∈ xs, ∃ s, v = PyVal.str s) :
    insertMembers label xs acc =
      some (applyWrites
        ((xs.filterMap asStr).map (fun s => ( strip_species_prefix s, label))) acc) := by
  induction xs generalizing acc with
  | nil => rfl
  | cons m rest ih =>
      obtain ⟨s, hs⟩ := hstr m (List.mem_cons_self m rest)
      subst hs
      rw [insertMembers]
      show insertMembers label rest (pySet acc ( strip_species_prefix s) label) = _
      rw [ih _ (fun v hv => hstr v (List.mem_cons_of_mem _ hv))]
      rfl

theorem insertMembers_strings (label : String) (ns : List String)
    (acc : List (String × String)) :
    insertMembers label (ns.map PyVal.str) acc =
      some (applyWrites (ns.map (fun m => ( strip_species_prefix m, label))) acc) := by
  induction ns generalizing acc with
  | nil => rfl
  | cons m rest ih =>
      rw [List.map_cons, insertMembers]
      show insertMembers label (rest.map PyVal.str)
        (pySet acc ( strip_species_prefix m) label) = _
      rw [ih]
      rfl

theorem insertComponents_strings (names : List (List String)) (i : Nat)
    (acc : List (String × String)) :
    insertComponents (names.map (fun ns => PyVal.list (ns.map PyVal.str))) i acc =
      some (applyWrites (componentWrites names i) acc) := by
  induction names generalizing i acc with
  | nil => rfl
  | cons ns rest ih =>
      rw [List.map_cons, insertComponents]
      show (match insertMembers (toString i) (ns.map PyVal.str) acc with
        | some acc2 => insertComponents
            (rest.map (fun ms : List String => PyVal.list (ms.map PyVal.str))) (i + 1) acc2
        | none => none) = _
      rw [insertMembers_strings]
      show insertComponents
          (rest.map (fun ms : List String => PyVal.list (ms.map PyVal.str))) (i + 1)
          (applyWrites (ns.map (fun m => ( strip_species_prefix m, toString i))) acc) = _
      rw [ih, componentWrites, applyWrites_append]

theorem insertOrthogroups_writes (data : PyDict) (acc : List (String × String))
    (hstr : ∀ k xs v, (k, PyVal.list xs) ∈ data → v ∈ xs → ∃ s, v = PyVal.str s) :
    insertOrthogroups data acc = some (applyWrites (orthoWrites data) acc) := by
  induction data generalizing acc with
  | nil => rfl
  | cons e rest ih =>
      obtain ⟨k, val⟩ := e
      cases val with
      | str s => exact ih acc (fun k xs v hm hv => hstr k xs v (List.mem_cons_of_mem _ hm) hv)
      | int n => exact ih acc (fun k xs v hm hv => hstr k xs v (List.mem_cons_of_mem _ hm) hv)
      | list xs =>
          rw [insertOrthogroups, insertMembers_all_str k xs acc
            (fun v hv => hstr k xs v (List.mem_cons_self _ _) hv)]
          show insertOrthogroups rest
            (applyWrites ((xs.filterMap asStr).map
              (fun s => ( strip_species_prefix s, k))) acc) = _
          rw [ih _ (fun k xs v hm hv => hstr k xs v (List.mem_cons_of_mem _ hm) hv)]
          rw [orthoWrites, applyWrites_append]

theorem componentWrites_key_mem (names : List (List String)) (i j : Nat)
    (ns : List String) (m : String) (hj : names.get? j = some ns) (hm : m ∈ ns) :
    ( strip_species_prefix m, toString (i + j)) ∈ componentWrites names i := by
  induction names generalizing i j with
  | nil => simp at hj
  | cons ns0 rest ih =>
      cases j with
      | zero =>
          rw [List.get?_cons_zero, Option.some_inj] at hj
          subst hj
          rw [componentWrites, List.mem_append]
          exact Or.inl (List.mem_map.mpr ⟨m, hm, by rw [Nat.add_zero]⟩)
      | succ j' =>
          rw [List.get?_cons_succ] at hj
          rw [componentWrites, List.mem_append]
          right
          have := ih (i + 1) j' hj
          rwa [Nat.add_assoc, Nat.add_comm 1 j'] at this

theorem mem_componentWrites (names : List (List String)) (i : Nat)
    (p : String × String) (hp : p ∈ componentWrites names i) :
    ∃ j ns m, names.get? j = some ns ∧ m ∈ ns ∧
      p = ( strip_species_prefix m, toString (i + j)) := by
  induction names generalizing i with
  | nil => simp [componentWrites] at hp
  | cons ns0 rest ih =>
      rw [componentWrites, List.mem_append] at hp
      rcases hp with hp | hp
      · rcases List.mem_map.mp hp with ⟨m, hm, hpm⟩
        exact ⟨0, ns0, m, rfl, hm, by rw [Nat.add_zero, hpm]⟩
      · rcases ih (i + 1) hp with ⟨j, ns, m, hj, hm, hpe⟩
        refine ⟨j + 1, ns, m, by simpa using hj, hm, ?_⟩
        rwa [Nat.add_assoc, Nat.add_comm 1 j] at hpe

theorem mem_filterMap_asStr (xs : List PyVal) (s : String) :
    s ∈ xs.filterMap asStr ↔ PyVal.str s ∈ xs := by
  rw [List.mem_filterMap]
  constructor
  · rintro ⟨v, hv, hvs⟩
    cases v with
    | str t =>
        rw [show asStr (PyVal.str t) = some t from rfl, Option.some_inj] at hvs
        exact hvs ▸ hv
    | int n => exact absurd hvs (by simp [asStr])
    | list ys => exact absurd hvs (by simp [asStr])
  · intro hv
    exact ⟨PyVal.str s, hv, rfl⟩

theorem orthoWrites_key_mem (data : PyDict) (k : String) (xs : List PyVal)
    (s : String) (hmem : (k, PyVal.list xs) ∈ data) (hs : PyVal.str s ∈ xs) :
    ( strip_species_prefix s, k) ∈ orthoWrites data := by
  induction data with
  | nil => exact absurd hmem (List.not_mem_nil _)
  | cons e rest ih =>
      rcases List.mem_cons.mp hmem with he | he
      · subst he
        rw [orthoWrites, List.mem_append]
        exact Or.inl (List.mem_map.mpr ⟨s, (mem_filterMap_asStr xs s).mpr hs, rfl⟩)
      · obtain ⟨k0, val⟩ := e
        cases val with
        | str t => exact ih he
        | int n => exact ih he
        | list ys =>
            rw [orthoWrites, List.mem_append]
            exact Or.inr (ih he)

theorem mem_orthoWrites (data : PyDict) (p : String × String)
    (hp : p ∈ orthoWrites data) :
    ∃ k xs s, (k, PyVal.list xs) ∈ data ∧ PyVal.str s ∈ xs ∧
      p = ( strip_species_prefix s, k) := by
  induction data with
  | nil => simp [orthoWrites] at hp
  | cons e rest ih =>
      obtain ⟨k0, val⟩ := e
      cases val with
      | str t =>
          rcases ih hp with ⟨k, xs, s, hmem, hs, hpe⟩
          exact ⟨k, xs, s, List.mem_cons_of_mem _ hmem, hs, hpe⟩
      | int n =>
          rcases ih hp with ⟨k, xs, s, hmem, hs, hpe⟩
          exact ⟨k, xs, s, List.mem_cons_of_mem _ hmem, hs, hpe⟩
      | list ys =>
          rw [orthoWrites, List.mem_append] at hp
          rcases hp with hp | hp
          · rcases List.mem_map.mp hp with ⟨s, hs, hpe⟩
            exact ⟨k0, ys, s, List.mem_cons_self _ _,
              (mem_filterMap_asStr ys s).mp hs, hpe.symm⟩
          · rcases ih hp with ⟨k, xs, s, hmem, hs, hpe⟩
            exact ⟨k, xs, s, List.mem_cons_of_mem _ hmem, hs, hpe⟩

theorem orthoWrites_append (d₁ d₂ : PyDict) :
    orthoWrites (d₁ ++ d₂) = orthoWrites d₁ ++ orthoWrites d₂ := by
  induction d₁ with
  | nil => rfl
  | cons e rest ih =>
      obtain ⟨k0, val⟩ := e
      cases val with
      | str t => simpa [orthoWrites] using ih
      | int n => simpa [orthoWrites] using ih
      | list ys => rw [List.cons_append, orthoWrites, orthoWrites, ih, List.append_assoc]

theorem pyGet_of_nodup_mem {κ ν : Type} [DecidableEq κ] (d : List (κ × ν))
    (k : κ) (v : ν) (hnd : (d.map Prod.fst).Nodup) (hmem : (k, v) ∈ d) :
    pyGet d k = some v := by
  induction d with
  | nil => exact absurd hmem (List.not_mem_nil _)
  | cons p rest ih =>
      rw [List.map_cons, List.nodup_cons] at hnd
      rcases List.mem_cons.mp hmem with h | h
      · subst h
        exact pyGet_cons_of_eq _ _ _ rfl
      · have hpk : ¬ p.1 = k := by
          intro hk
          exact hnd.1 (hk ▸ List.mem_map.mpr ⟨(k, v), h, rfl⟩)
        rw [pyGet_cons_of_ne _ _ _ hpk]
        exact ih hnd.2 h

theorem orthoWrites_nil_of_no_lists (data : PyDict)
    (h : ∀ k v, (k, v) ∈ data → ∀ xs, v ≠ PyVal.list xs) :
    orthoWrites data = [] := by
  induction data with
  | nil => rfl
  | cons e rest ih =>
      obtain ⟨k0, val⟩ := e
      cases val with
      | str t => exact ih (fun k v hm => h k v (List.mem_cons_of_mem _ hm))
      | int n => exact ih (fun k v hm => h k v (List.mem_cons_of_mem _ hm))
      | list ys =>
          exact absurd rfl (h k0 (PyVal.list ys) (List.mem_cons_self _ _) ys)

theorem insertMembers_nodup (label : String) (xs : List PyVal)
    (acc res : List (String × String)) (hnd : (acc.map Prod.fst).Nodup)
    (h : insertMembers label xs acc = some res) : (res.map Prod.fst).Nodup := by
  induction xs generalizing acc with
  | nil =>
      rw [insertMembers, Option.some_inj] at h
      exact h ▸ hnd
  | cons m rest ih =>
      rw [insertMembers] at h
      cases hm : asStr m with
      | some str0 =>
          rw [hm] at h
          exact ih _ (pySet_keys_nodup _ _ _ hnd) h
      | none => rw [hm] at h; exact absurd h (by simp)

theorem insertComponents_nodup (clusters : List PyVal) (i : Nat)
    (acc res : List (String × String)) (hnd : (acc.map Prod.fst).Nodup)
    (h : insertComponents clusters i acc = some res) : (res.map Prod.fst).Nodup := by
  induction clusters generalizing i acc with
  | nil =>
      rw [insertComponents, Option.some_inj] at h
      exact h ▸ hnd
  | cons c rest ih =>
      rw [insertComponents] at h
      cases hc : pyIter c with
      | some members =>
          rw [hc] at h
          have h2 : (match insertMembers (toString i) members acc with
            | some acc2 => insertComponents rest (i + 1) acc2
            | none => none) = some res := h
          cases hi : insertMembers (toString i) members acc with
          | some acc2 =>
              rw [hi] at h2
              exact ih _ _ (insertMembers_nodup _ _ _ _ hnd hi) h2
          | none => rw [hi] at h2; exact absurd h2 (by simp)
      | none => rw [hc] at h; exact absurd h (by simp)

theorem insertOrthogroups_nodup (data : PyDict)
    (acc res : List (String × String)) (hnd : (acc.map Prod.fst).Nodup)
    (h : insertOrthogroups data acc = some res) : (res.map Prod.fst).Nodup := by
  induction data generalizing acc with
  | nil =>
      rw [insertOrthogroups, Option.some_inj] at h
      exact h ▸ hnd
  | cons e rest ih =>
      obtain ⟨k0, val⟩ := e
      cases val with
      | str t => exact ih _ hnd h
      | int n => exact ih _ hnd h
      | list ys =>
          rw [insertOrthogroups] at h
          cases hi : insertMembers k0 ys acc with
          | some acc2 =>
              rw [hi] at h
              exact ih _ (insertMembers_nodup _ _ _ _ hnd hi) h
          | none => rw [hi] at h; exact absurd h (by simp)

theorem lastWrite_componentWrites (names : List (List String)) (i j : Nat)
    (ns : List String) (m : String) (hj : names.get? j = some ns) (hm : m ∈ ns)
    (hlater : ∀ j' ns' m', j < j' → names.get? j' = some ns' → m' ∈ ns' →
      strip_species_prefix m' ≠ strip_species_prefix m) :
    lastWrite (componentWrites names i) ( strip_species_prefix m)
      = some (toString (i + j)) := by
  induction names generalizing i j with
  | nil => simp at hj
  | cons ns0 rest ih =>
      rw [componentWrites, lastWrite_append]
      cases j with
      | zero =>
          rw [List.get?_cons_zero, Option.some_inj] at hj
          subst hj
          have hnone : lastWrite (componentWrites rest (i + 1))
              ( strip_species_prefix m) = none := by
            apply lastWrite_eq_none_of_not_mem
            intro hkey
            rcases List.mem_map.mp hkey with ⟨p, hp, hpk⟩
            rcases mem_componentWrites rest (i + 1) p hp with ⟨j', ns', m', hj', hm', hpe⟩
            have : strip_species_prefix m' = strip_species_prefix m := by
              rw [hpe] at hpk
              exact hpk
            exact hlater (j' + 1) ns' m' (Nat.succ_pos j') (by simpa using hj') hm' this
          rw [hnone]
          have hconst : lastWrite
              (ns0.map (fun m0 => ( strip_species_prefix m0, toString i)))
              ( strip_species_prefix m) = some (toString i) := by
            apply lastWrite_const_label
            · intro p hp
              rcases List.mem_map.mp hp with ⟨m0, _, hpe⟩
              rw [← hpe]
            · rw [List.map_map]
              exact List.mem_map.mpr ⟨m, hm, rfl⟩
          rw [hconst, Nat.add_zero]
      | succ j' =>
          rw [List.get?_cons_succ] at hj
          have hrec := ih (i + 1) j' hj (by
            intro j'' ns'' m'' hlt hj'' hm''
            exact hlater (j'' + 1) ns'' m'' (Nat.succ_lt_succ hlt) (by simpa using hj'') hm'')
          rw [hrec]
          rw [Nat.add_assoc, Nat.add_comm 1 j']

theorem lastWrite_orthoWrites (d₁ d₂ : PyDict) (k : String) (xs : List PyVal)
    (s : String) (hs : PyVal.str s ∈ xs)
    (hlater : ∀ k0 xs0 t, (k0, PyVal.list xs0) ∈ d₂ → PyVal.str t ∈ xs0 →
      strip_species_prefix t ≠ strip_species_prefix s) :
    lastWrite (orthoWrites (d₁ ++ (k, PyVal.list xs) :: d₂))
      ( strip_species_prefix s) = some k := by
  rw [orthoWrites_append, lastWrite_append]
  have hhead : orthoWrites ((k, PyVal.list xs) :: d₂) =
      (xs.filterMap asStr).map (fun t => ( strip_species_prefix t, k)) ++
        orthoWrites d₂ := rfl
  rw [hhead, lastWrite_append]
  have hnone : lastWrite (orthoWrites d₂) ( strip_species_prefix s) = none := by
    apply lastWrite_eq_none_of_not_mem
    intro hkey
    rcases List.mem_map.mp hkey with ⟨p, hp, hpk⟩
    rcases mem_orthoWrites d₂ p hp with ⟨k0, xs0, t, hmem, ht, hpe⟩
    exact hlater k0 xs0 t hmem ht (by rw [hpe] at hpk; exact hpk)
  rw [hnone]
  have hconst : lastWrite
      ((xs.filterMap asStr).map (fun t => ( strip_species_prefix t, k)))
      ( strip_species_prefix s) = some k := by
    apply lastWrite_const_label
    · intro p hp
      rcases List.mem_map.mp hp with ⟨t, _, hpe⟩
      rw [← hpe]
    · rw [List.map_map]
      exact List.mem_map.mpr ⟨s, (mem_filterMap_asStr xs s).mpr hs, rfl⟩
  rw [hconst]

theorem invert_clusters_components (data : PyDict) (names : List (List String))
    (hc : pyGet data "components" = some (PyVal.list
      (names.map (fun ms : List String => PyVal.list (ms.map PyVal.str))))) :
    invert_clusters data = some (applyWrites (componentWrites names 0) []) := by
  unfold invert_clusters
  rw [hc]
  exact insertComponents_strings names 0 []

theorem invert_clusters_orthogroups (data : PyDict)
    (hnc : ∀ xs, pyGet data "components" ≠ some (PyVal.list xs))
    (hstr : ∀ k xs v, (k, PyVal.list xs) ∈ data → v ∈ xs → ∃ t, v = PyVal.str t) :
    invert_clusters data = some (applyWrites (orthoWrites data) []) := by
  unfold invert_clusters
  cases hcv : pyGet data "components" with
  | none => exact insertOrthogroups_writes data [] hstr
  | some val =>
      cases val with
      | str t => exact insertOrthogroups_writes data [] hstr
      | int n => exact insertOrthogroups_writes data [] hstr
      | list xs => exact absurd hcv (hnc xs)

/-- C2: for every input structure whose key "components" holds a list of
clusters, given as lists of member strings with pairwise distinct
normalized members, invert_clusters succeeds, produces exactly the ordered
list of (normalized member, stringified cluster index) pairs, and so maps
each normalized member identifier to the stringified zero-based index of
its cluster (in particular [[a,b],[c]] yields a ↦ "0", b ↦ "0",
c ↦ "1"). -/
theorem components_format_mapping (data : PyDict) (names : List (List String))
    (hc : pyGet data "components" = some (PyVal.list
      (names.map (fun ms : List String => PyVal.list (ms.map PyVal.str)))))
    (hdist : ((componentWrites names 0).map Prod.fst).Nodup) :
    invert_clusters data = some (componentWrites names 0) ∧
    ∀ j ns m, names.get? j = some ns → m ∈ ns →
      pyGet (componentWrites names 0) ( strip_species_prefix m)
        = some (toString j) := by
  constructor
  · rw [invert_clusters_components data names hc, applyWrites_nil_of_nodup _ hdist]
  · intro j ns m hj hm
    have hmem := componentWrites_key_mem names 0 j ns m hj hm
    rw [Nat.zero_add] at hmem
    exact pyGet_of_nodup_mem _ _ _ hdist hmem

theorem components_format_mapping_witness :
    invert_clusters [("components", PyVal.list
        [PyVal.list [PyVal.str "a", PyVal.str "b"], PyVal.list [PyVal.str "c"]])] =
      some [("a", "0"), ("b", "0"), ("c", "1")] := by
  have h := components_format_mapping
    [("components", PyVal.list
      [PyVal.list [PyVal.str "a", PyVal.str "b"], PyVal.list [PyVal.str "c"]])]
    [["a", "b"], ["c"]] (by rfl) (by decide)
  exact h.1

/-- C3: for every input structure without a "components" list, every key
with a list value (of member strings) is a cluster labelled by the key and
every other key is skipped; with pairwise distinct normalized members the
produced dict maps each member to its cluster-id key, and a structure with
no list values at all yields the empty mapping rather than an error. -/
theorem orthogroups_format_mapping (data : PyDict)
    (hnc : ∀ xs, pyGet data "components" ≠ some (PyVal.list xs))
    (hstr : ∀ k xs v, (k, PyVal.list xs) ∈ data → v ∈ xs → ∃ t, v = PyVal.str t)
    (hdist : ((orthoWrites data).map Prod.fst).Nodup) :
    invert_clusters data = some (orthoWrites data) ∧
    (∀ k xs t, (k, PyVal.list xs) ∈ data → PyVal.str t ∈ xs →
      pyGet (orthoWrites data) ( strip_species_prefix t) = some k) ∧
    ((∀ k v, (k, v) ∈ data → ∀ xs, v ≠ PyVal.list xs) →
      invert_clusters data = some []) := by
  have hmain : invert_clusters data = some (orthoWrites data) := by
    rw [invert_clusters_orthogroups data hnc hstr, applyWrites_nil_of_nodup _ hdist]
  refine ⟨hmain, ?_, ?_⟩
  · intro k xs t hmem ht
    exact pyGet_of_nodup_mem _ _ _ hdist (orthoWrites_key_mem data k xs t hmem ht)
  · intro hnl
    rw [hmain, orthoWrites_nil_of_no_lists data hnl]

theorem orthogroups_format_mapping_witness :
    invert_clusters [("g1", PyVal.list [PyVal.str "a", PyVal.str "b"]),
        ("g2", PyVal.list [PyVal.str "c"]), ("meta", PyVal.int 5)] =
      some [("a", "g1"), ("b", "g1"), ("c", "g2")] ∧
    invert_clusters [("note", PyVal.str "x"), ("size", PyVal.int 2)] = some [] := by
  constructor
  · have h := orthogroups_format_mapping
      [("g1", PyVal.list [PyVal.str "a", PyVal.str "b"]),
        ("g2", PyVal.list [PyVal.str "c"]), ("meta", PyVal.int 5)]
      (fun xs h => Option.noConfusion h)
      (by
        intro k xs v hmem hv
        simp only [List.mem_cons, List.not_mem_nil, or_false, Prod.mk.injEq,
          PyVal.list.injEq] at hmem
        rcases hmem with ⟨hk, hxs⟩ | ⟨hk, hxs⟩ | ⟨hk, hxs⟩
        · subst hxs
          simp only [List.mem_cons, List.not_mem_nil, or_false] at hv
          rcases hv with hv | hv
          · exact ⟨"a", hv⟩
          · exact ⟨"b", hv⟩
        · subst hxs
          simp only [List.mem_cons, List.not_mem_nil, or_false] at hv
          exact ⟨"c", hv⟩
        · exact absurd hxs (by simp))
      (by decide)
    exact h.1
  · have h := orthogroups_format_mapping
      [("note", PyVal.str "x"), ("size", PyVal.int 2)]
      (fun xs h => Option.noConfusion h)
      (by
        intro k xs v hmem hv
        simp only [List.mem_cons, List.not_mem_nil, or_false, Prod.mk.injEq] at hmem
        rcases hmem with ⟨hk, hxs⟩ | ⟨hk, hxs⟩ <;> exact absurd hxs (by simp))
      (by decide)
    apply h.2.2
    intro k v hmem xs
    simp only [List.mem_cons, List.not_mem_nil, or_false, Prod.mk.injEq] at hmem
    rcases hmem with ⟨hk, hv⟩ | ⟨hk, hv⟩ <;> subst hv <;> simp

/-- C8: within one mapping each normalized identifier gets exactly one
label, and when it occurs in two clusters the later cluster's label wins:
in the components format an identifier of cluster j that recurs in no
cluster after j is mapped to label toString j even when it also occurs in
clusters before j; likewise in the orthogroups format with the key
iteration order; and every mapping invert_clusters produces has pairwise
distinct keys. -/
theorem last_writer_wins :
    (∀ (data : PyDict) (names : List (List String)) (j : Nat) (ns : List String)
        (m : String),
      pyGet data "components" = some (PyVal.list
        (names.map (fun ms : List String => PyVal.list (ms.map PyVal.str)))) →
      names.get? j = some ns → m ∈ ns →
      (∀ j' ns' m', j < j' → names.get? j' = some ns' → m' ∈ ns' →
        strip_species_prefix m' ≠ strip_species_prefix m) →
      ∃ res, invert_clusters data = some res ∧
        pyGet res ( strip_species_prefix m) = some (toString j)) ∧
    (∀ (d₁ d₂ : PyDict) (k : String) (xs : List PyVal) (t : String),
      (∀ xs0, pyGet (d₁ ++ (k, PyVal.list xs) :: d₂) "components" ≠
        some (PyVal.list xs0)) →
      (∀ k0 xs0 v, (k0, PyVal.list xs0) ∈ d₁ ++ (k, PyVal.list xs) :: d₂ →
        v ∈ xs0 → ∃ u, v = PyVal.str u) →
      PyVal.str t ∈ xs →
      (∀ k0 xs0 u, (k0, PyVal.list xs0) ∈ d₂ → PyVal.str u ∈ xs0 →
        strip_species_prefix u ≠ strip_species_prefix t) →
      ∃ res, invert_clusters (d₁ ++ (k, PyVal.list xs) :: d₂) = some res ∧
        pyGet res ( strip_species_prefix t) = some k) ∧
    (∀ (data : PyDict) (res : List (String × String)),
      invert_clusters data = some res → (res.map Prod.fst).Nodup) := by
  refine ⟨?_, ?_, ?_⟩
  · intro data names j ns m hc hj hm hlater
    refine ⟨applyWrites (componentWrites names 0) [],
      invert_clusters_components data names hc, ?_⟩
    rw [pyGet_applyWrites]
    rw [lastWrite_componentWrites names 0 j ns m hj hm hlater, Nat.zero_add]
  · intro d₁ d₂ k xs t hnc hstr ht hlater
    refine ⟨applyWrites (orthoWrites (d₁ ++ (k, PyVal.list xs) :: d₂)) [],
      invert_clusters_orthogroups _ hnc hstr, ?_⟩
    rw [pyGet_applyWrites]
    rw [lastWrite_orthoWrites d₁ d₂ k xs t ht hlater]
  · intro data res h
    unfold invert_clusters at h
    cases hcv : pyGet data "components" with
    | none =>
        rw [hcv] at h
        exact insertOrthogroups_nodup data [] res (by simp) h
    | some val =>
        rw [hcv] at h
        cases val with
        | str u => exact insertOrthogroups_nodup data [] res (by simp) h
        | int n => exact insertOrthogroups_nodup data [] res (by simp) h
        | list xs => exact insertComponents_nodup xs 0 [] res (by simp) h

theorem last_writer_wins_witness :
    ∃ res, invert_clusters [("components", PyVal.list
        [PyVal.list [PyVal.str "x"], PyVal.list [PyVal.str "x"]])] = some res ∧
      pyGet res "x" = some "1" := by
  have h := last_writer_wins.1
    [("components", PyVal.list [PyVal.list [PyVal.str "x"], PyVal.list [PyVal.str "x"]])]
    [["x"], ["x"]] 1 ["x"] "x" (by rfl) (by rfl) (by simp)
    (by
      intro j' ns' m' hlt hj' hm'
      rw [List.get?_eq_none.mpr hlt] at hj'
      cases hj')
  exact h

theorem splitOnceAux_of_no_dot (l : List Char) (h : '.' ∉ l) :
    splitOnceAux l = none := by
  induction l with
  | nil => rfl
  | cons c cs ih =>
      simp only [List.mem_cons, not_or] at h
      rw [splitOnceAux, if_neg (fun hc => h.1 hc.symm), ih h.2]

theorem splitOnceAux_decomp (pre rest : List Char) (h : '.' ∉ pre) :
    splitOnceAux (pre ++ '.' :: rest) = some (pre, rest) := by
  induction pre with
  | nil => simp [splitOnceAux]
  | cons c cs ih =>
      simp only [List.mem_cons, not_or] at h
      rw [List.cons_append, splitOnceAux, if_neg (fun hc => h.1 hc.symm), ih h.2]

/-- C1 counterexample: normalization by strip_species_prefix is not
idempotent over all strings: "Aa.Bb.c" normalizes to "Bb.c", which a second
normalization turns into "c". -/
theorem normalization_not_idempotent :
    strip_species_prefix ( strip_species_prefix "Aa.Bb.c") ≠
      strip_species_prefix "Aa.Bb.c" := by decide

/-- C1 amended: normalization is idempotent on every identifier whose
normalized form does not itself start with a non-empty all-alphabetic
part followed by a dot (in particular on every identifier with at most one
dot, and on every real species-prefixed accession such as
"Acamar.WP_012160728.1"), and it never alters an identifier whose dots
occur only in non-prefix positions. -/
theorem normalization_idempotent_amended (s : String)
    (h : hasSpeciesCode ( strip_species_prefix s) = false) :
    strip_species_prefix ( strip_species_prefix s) = strip_species_prefix s ∧
    (hasSpeciesCode s = false → strip_species_prefix s = s) :=
  ⟨strip_of_not_hasSpeciesCode _ h, fun h2 => strip_of_not_hasSpeciesCode s h2⟩

theorem normalization_idempotent_amended_witness :
    ( strip_species_prefix ( strip_species_prefix "Acamar.WP_012160728.1") =
      strip_species_prefix "Acamar.WP_012160728.1") ∧
    strip_species_prefix "WP_1" = "WP_1" :=
  ⟨(normalization_idempotent_amended "Acamar.WP_012160728.1" (by decide)).1,
   (normalization_idempotent_amended "WP_1" (by decide)).2 (by decide)⟩

/-- C7: strip_species_prefix is total over all strings and inspects the
first dot only: a string without a dot is returned unchanged, and a string
pre ++ "." ++ rest with no dot inside pre is mapped to rest exactly when
pre is non-empty and all-alphabetic, and is returned unchanged otherwise
(in particular when pre is empty or contains a digit), dots inside rest
left intact. -/
theorem strip_first_dot_contract :
    (∀ s : String, '.' ∉ s.data → strip_species_prefix s = s) ∧
    (∀ pre rest : List Char, '.' ∉ pre →
      strip_species_prefix (String.mk (pre ++ '.' :: rest)) =
        if pre ≠ [] ∧ pre.all Char.isAlpha then String.mk rest
        else String.mk (pre ++ '.' :: rest)) := by
  constructor
  · intro s h
    unfold strip_species_prefix
    rw [splitOnceAux_of_no_dot s.data h]
  · intro pre rest h
    unfold strip_species_prefix
    rw [show (String.mk (pre ++ '.' :: rest)).data = pre ++ '.' :: rest from rfl,
      splitOnceAux_decomp pre rest h]

theorem strip_first_dot_contract_witness :
    strip_species_prefix "WP_012160728" = "WP_012160728" ∧
    strip_species_prefix (String.mk (['A', 'b'] ++ '.' :: ['c', '.', 'd'])) =
      String.mk ['c', '.', 'd'] := by
  constructor
  · exact strip_first_dot_contract.1 "WP_012160728" (by decide)
  · have h := strip_first_dot_contract.2 ['A', 'b'] ['c', '.', 'd'] (by decide)
    rw [if_pos] at h
    · exact h
    · exact ⟨by decide, by decide⟩

/-! ## compare_clusterings of compare_clusters.py -/

/-- Python string comparison `<`: lexicographic on code points. -/
def charListLt : List Char → List Char → Bool
  | _, [] => false
  | [], _ :: _ => true
  | a :: as, b :: bs =>
      decide (a.toNat < b.toNat) || (decide (a.toNat = b.toNat) && charListLt as bs)

def pyStrLt (a b : String) : Bool := charListLt a.data b.data

/-- Insertion into an ascending list, as Python's sorted orders strings. -/
def insertStr (x : String) : List String → List String
  | [] => [x]
  | y :: ys => if pyStrLt y x then y :: insertStr x ys else x :: y :: ys

/-- Ascending sort of a list of strings: models `sorted(common)`. -/
def sortStrings : List String → List String
  | [] => []
  | x :: xs => insertStr x (sortStrings xs)

/-- The distinct keys of a mapping in first-occurrence order: models
`set(inv.keys())` together with the set sizes the code reports. -/
def keysOf (d : List (String × String)) : List String := (d.map Prod.fst).dedup

def note1 (n : Nat) : String :=
  "  Note: " ++ toString n ++ " sequences only in file 1 (excluded)"

def note2 (n : Nat) : String :=
  "  Note: " ++ toString n ++ " sequences only in file 2 (excluded)"

def noteCommon (n : Nat) : String := "  Sequences in common: " ++ toString n

/-- Embeds compare_clusterings of compare_clusters.py up to the two score
library calls: the stderr diagnostics, and either the disjoint-input error
exit or the two aligned label lists that adjusted_rand_score and
normalized_mutual_info_score are then computed from. -/
def compare_clusterings (inv1 inv2 : List (String × String)) :
    List String × Except String (List String × List String) :=
  let keys1 := keysOf inv1
  let keys2 := keysOf inv2
  let common := keys1.filter (fun k => decide (k ∈ keys2))
  let only1 := keys1.filter (fun k => decide (k ∉ keys2))
  let only2 := keys2.filter (fun k => decide (k ∉ keys1))
  let notes := (if only1.isEmpty then [] else [note1 only1.length]) ++
    (if only2.isEmpty then [] else [note2 only2.length])
  if common.isEmpty then
    (notes, Except.error "Error: No sequences in common between the two files.")
  else
    let sortedSeqs := sortStrings common
    (notes ++ [noteCommon common.length],
      Except.ok (sortedSeqs.filterMap (fun q => pyGet inv1 q),
        sortedSeqs.filterMap (fun q => pyGet inv2 q)))

/-- C4: when the two mappings share no normalized key and each side is
non-empty, compare_clusterings emits the two exclusive-count diagnostics
and then fails with the disjoint-input error, producing no label lists for
the ARI/NMI computation. -/
theorem disjoint_inputs_fail (inv1 inv2 : List (String × String))
    (hdisj : ∀ k ∈ keysOf inv1, k ∉ keysOf inv2)
    (h1 : inv1 ≠ []) (h2 : inv2 ≠ []) :
    compare_clusterings inv1 inv2 =
      ([note1 (keysOf inv1).length, note2 (keysOf inv2).length],
        Except.error "Error: No sequences in common between the two files.") := by
  have hcommon : (keysOf inv1).filter (fun k => decide (k ∈ keysOf inv2)) = [] := by
    rw [List.filter_eq_nil_iff]
    intro k hk
    simpa using hdisj k hk
  have honly1 : (keysOf inv1).filter (fun k => decide (k ∉ keysOf inv2))
      = keysOf inv1 := by
    rw [List.filter_eq_self]
    intro k hk
    simpa using hdisj k hk
  have honly2 : (keysOf inv2).filter (fun k => decide (k ∉ keysOf inv1))
      = keysOf inv2 := by
    rw [List.filter_eq_self]
    intro k hk
    simp only [decide_eq_true_eq]
    intro hk1
    exact hdisj k hk1 hk
  have hk1ne : ¬ ((keysOf inv1).isEmpty = true) := by
    rw [List.isEmpty_iff]
    intro h
    exact h1 (List.map_eq_nil_iff.mp ((List.dedup_eq_nil _).mp h))
  have hk2ne : ¬ ((keysOf inv2).isEmpty = true) := by
    rw [List.isEmpty_iff]
    intro h
    exact h2 (List.map_eq_nil_iff.mp ((List.dedup_eq_nil _).mp h))
  simp only [compare_clusterings]
  rw [hcommon, honly1, honly2, if_neg hk1ne, if_neg hk2ne,
    if_pos (show ([] : List String).isEmpty = true from rfl)]
  rfl

theorem disjoint_inputs_fail_witness :
    compare_clusterings [("a", "0")] [("b", "1")] =
      (["  Note: 1 sequences only in file 1 (excluded)",
        "  Note: 1 sequences only in file 2 (excluded)"],
        Except.error "Error: No sequences in common between the two files.") := by
  have h := disjoint_inputs_fail [("a", "0")] [("b", "1")]
    (by decide) (by decide) (by decide)
  exact h

/-! ## Statistics engine: spec-modelled scores.  The code computes its two
scores through sklearn, which is external to this repository, so the
standard definitions the spec describes are modelled here. -/

/-- All index pairs i < j of a list, as ordered element pairs. -/
def pairList {α : Type} : List α → List (α × α)
  | [] => []
  | x :: xs => xs.map (fun y => (x, y)) ++ pairList xs

/-- Modelled from the spec: sklearn.metrics.adjusted_rand_score, which is
not part of this repository.  The chance-corrected pairwise agreement of
the two equal-length label sequences, computed from the pair confusion
counts, the degenerate no-disagreement case (identical partitions among
them) being 1.0 as in the library. -/
def adjusted_rand_score (l1 l2 : List String) : ℚ :=
  let ps := pairList (l1.zip l2)
  let tp : ℚ := ps.countP (fun q => decide (q.1.1 = q.2.1) && decide (q.1.2 = q.2.2))
  let fn : ℚ := ps.countP (fun q => decide (q.1.1 = q.2.1) && ! decide (q.1.2 = q.2.2))
  let fp : ℚ := ps.countP (fun q => ! decide (q.1.1 = q.2.1) && decide (q.1.2 = q.2.2))
  let tn : ℚ := ps.countP (fun q => ! decide (q.1.1 = q.2.1) && ! decide (q.1.2 = q.2.2))
  if fn = 0 ∧ fp = 0 then 1
  else 2 * (tp * tn - fn * fp) / ((tp + fn) * (fn + tn) + (tp + fp) * (fp + tn))

theorem mem_of_mem_pairList {α : Type} (l : List α) (q : α × α)
    (hq : q ∈ pairList l) : q.1 ∈ l ∧ q.2 ∈ l := by
  induction l with
  | nil => simp [pairList] at hq
  | cons x xs ih =>
      rw [pairList, List.mem_append] at hq
      rcases hq with hq | hq
      · rcases List.mem_map.mp hq with ⟨y, hy, hqe⟩
        rw [← hqe]
        exact ⟨List.mem_cons_self _ _, List.mem_cons_of_mem _ hy⟩
      · rcases ih hq with ⟨h1, h2⟩
        exact ⟨List.mem_cons_of_mem _ h1, List.mem_cons_of_mem _ h2⟩

theorem zip_self_map {α β : Type} (l : List α) (f : α → β) :
    l.zip (l.map f) = l.map (fun a => (a, f a)) := by
  induction l with
  | nil => rfl
  | cons x xs ih => rw [List.map_cons, List.zip_cons_cons, ih, List.map_cons]

theorem adjusted_rand_score_relabel (l : List String) (f : String → String)
    (hinj : ∀ x ∈ l, ∀ y ∈ l, f x = f y → x = y) :
    adjusted_rand_score l (l.map f) = 1 := by
  unfold adjusted_rand_score
  rw [if_pos]
  constructor
  · rw [Nat.cast_eq_zero, List.countP_eq_zero]
    intro q hq
    rw [zip_self_map] at hq
    have hmem := mem_of_mem_pairList _ q hq
    rcases List.mem_map.mp hmem.1 with ⟨a, _, hqa⟩
    rcases List.mem_map.mp hmem.2 with ⟨b, _, hqb⟩
    rw [← hqa, ← hqb]
    simp only [Bool.and_eq_true, decide_eq_true_eq, Bool.not_eq_true',
      decide_eq_false_iff_not]
    rintro ⟨hab, hfab⟩
    exact hfab (hab ▸ rfl)
  · rw [Nat.cast_eq_zero, List.countP_eq_zero]
    intro q hq
    rw [zip_self_map] at hq
    have hmem := mem_of_mem_pairList _ q hq
    rcases List.mem_map.mp hmem.1 with ⟨a, ha, hqa⟩
    rcases List.mem_map.mp hmem.2 with ⟨b, hb, hqb⟩
    rw [← hqa, ← hqb]
    simp only [Bool.and_eq_true, decide_eq_true_eq, Bool.not_eq_true',
      decide_eq_false_iff_not]
    rintro ⟨hab, hfab⟩
    exact hab (hinj a ha b hb hfab)

/-- One entropy summand -(c/n) ln(c/n); the 0 ln 0 = 0 convention is
automatic since Real.log 0 = 0. -/
noncomputable def entTerm (c n : Nat) : ℝ :=
  -(((c : ℝ) / (n : ℝ)) * Real.log ((c : ℝ) / (n : ℝ)))

/-- Modelled from the spec: the Shannon label entropy (natural log) that
the library normalizes the mutual information by. -/
noncomputable def entropyOf (l : List String) : ℝ :=
  ∑ a in l.toFinset, entTerm (l.count a) l.length

/-- One mutual-information summand (c/n) ln(c n / (c1 c2)). -/
noncomputable def miTerm (c c1 c2 n : Nat) : ℝ :=
  ((c : ℝ) / (n : ℝ)) * Real.log (((c : ℝ) * (n : ℝ)) / ((c1 : ℝ) * (c2 : ℝ)))

/-- Modelled from the spec: the mutual information of two equal-length
label sequences, summed over the support of their contingency table. -/
noncomputable def mutualInfoOf (l1 l2 : List String) : ℝ :=
  ∑ p in (l1.zip l2).toFinset,
    miTerm ((l1.zip l2).count p) (l1.count p.1) (l2.count p.2) l1.length

open Classical in
/-- Modelled from the spec: sklearn.metrics.normalized_mutual_info_score
(arithmetic-mean normalization, the code's default), which is not part of
this repository: 1.0 when neither side splits anything (at most one
distinct label each), 0.0 for zero mutual information, else the mutual
information normalized by the mean entropy. -/
noncomputable def normalized_mutual_info_score (l1 l2 : List String) : ℝ :=
  if l1.toFinset.card = l2.toFinset.card ∧ l1.toFinset.card ≤ 1 then 1
  else if mutualInfoOf l1 l2 = 0 then 0
  else mutualInfoOf l1 l2 / ((entropyOf l1 + entropyOf l2) / 2)

theorem count_map_of_inj_on {α β : Type} [BEq α] [LawfulBEq α] [BEq β]
    [LawfulBEq β] (l : List α) (f : α → β) (a : α)
    (h : ∀ b ∈ l, f b = f a → b = a) :
    (l.map f).count (f a) = l.count a := by
  induction l with
  | nil => rfl
  | cons b bs ih =>
      rw [List.map_cons, List.count_cons, List.count_cons,
        ih (fun x hx => h x (List.mem_cons_of_mem _ hx))]
      congr 1
      by_cases hba : b = a
      · subst hba
        simp
      · have hfb : f b ≠ f a := fun hf => hba (h b (List.mem_cons_self _ _) hf)
        simp [hba, hfb]

theorem toFinset_map_eq {α β : Type} [DecidableEq α] [DecidableEq β]
    (l : List α) (f : α → β) : (l.map f).toFinset = l.toFinset.image f := by
  ext b
  simp [List.mem_map]

theorem miTerm_diag (c n : Nat) (hc : c ≠ 0) : miTerm c c c n = entTerm c n := by
  unfold miTerm entTerm
  have hc' : (c : ℝ) ≠ 0 := Nat.cast_ne_zero.mpr hc
  have h1 : ((c : ℝ) * n) / ((c : ℝ) * c) = (n : ℝ) / c := mul_div_mul_left _ _ hc'
  by_cases hn : n = 0
  · subst hn
    simp
  · have hn' : (n : ℝ) ≠ 0 := Nat.cast_ne_zero.mpr hn
    rw [h1, Real.log_div hn' hc', Real.log_div hc' hn']
    ring

theorem entTerm_pos (c n : Nat) (h0 : 0 < c) (h1 : c < n) : 0 < entTerm c n := by
  unfold entTerm
  have hc : (0 : ℝ) < c := Nat.cast_pos.mpr h0
  have hn : (0 : ℝ) < n := lt_trans hc (Nat.cast_lt.mpr h1)
  have hp0 : (0 : ℝ) < (c : ℝ) / n := div_pos hc hn
  have hp1 : (c : ℝ) / n < 1 := (div_lt_one hn).mpr (Nat.cast_lt.mpr h1)
  have hlog := Real.log_neg hp0 hp1
  nlinarith

theorem entropyOf_pos (l : List String) (h2 : 2 ≤ l.toFinset.card) :
    0 < entropyOf l := by
  unfold entropyOf
  apply Finset.sum_pos
  · intro a ha
    have hal : a ∈ l := List.mem_toFinset.mp ha
    apply entTerm_pos
    · exact List.count_pos_iff.mpr hal
    · rcases Finset.exists_ne_of_one_lt_card (lt_of_lt_of_le one_lt_two h2) a
        with ⟨b, hb, hba⟩
      refine lt_of_le_of_ne (List.count_le_length _ _) (fun hcl => ?_)
      exact hba ((List.count_eq_length.mp hcl) b (List.mem_toFinset.mp hb)).symm
  · rw [← Finset.card_pos]
    omega

theorem mutualInfoOf_relabel (l : List String) (f : String → String)
    (hinj : ∀ x ∈ l, ∀ y ∈ l, f x = f y → x = y) :
    mutualInfoOf l (l.map f) = entropyOf l := by
  unfold mutualInfoOf entropyOf
  rw [zip_self_map, toFinset_map_eq,
    Finset.sum_image (fun x _ y _ hxy => (Prod.mk.inj hxy).1)]
  apply Finset.sum_congr rfl
  intro a ha
  have hal : a ∈ l := List.mem_toFinset.mp ha
  have h1 := count_map_of_inj_on l (fun x => (x, f x)) a
    (fun b _ hba => (Prod.mk.inj hba).1)
  simp only at h1
  rw [h1, count_map_of_inj_on l f a (fun b hb hba => hinj b hb a hal hba)]
  exact miTerm_diag _ _ (Nat.pos_iff_ne_zero.mp (List.count_pos_iff.mpr hal))

theorem entropyOf_relabel (l : List String) (f : String → String)
    (hinj : ∀ x ∈ l, ∀ y ∈ l, f x = f y → x = y) :
    entropyOf (l.map f) = entropyOf l := by
  unfold entropyOf
  rw [toFinset_map_eq,
    Finset.sum_image (fun x hx y hy hxy =>
      hinj x (List.mem_toFinset.mp hx) y (List.mem_toFinset.mp hy) hxy),
    List.length_map]
  apply Finset.sum_congr rfl
  intro a ha
  rw [count_map_of_inj_on l f a
    (fun b hb hba => hinj b hb a (List.mem_toFinset.mp ha) hba)]

theorem card_toFinset_map (l : List String) (f : String → String)
    (hinj : ∀ x ∈ l, ∀ y ∈ l, f x = f y → x = y) :
    (l.map f).toFinset.card = l.toFinset.card := by
  rw [toFinset_map_eq]
  apply Finset.card_image_of_injOn
  intro x hx y hy hxy
  exact hinj x (List.mem_toFinset.mp hx) y (List.mem_toFinset.mp hy) hxy

theorem nmi_relabel (l : List String) (f : String → String)
    (hinj : ∀ x ∈ l, ∀ y ∈ l, f x = f y → x = y) :
    normalized_mutual_info_score l (l.map f) = 1 := by
  unfold normalized_mutual_info_score
  rw [card_toFinset_map l f hinj]
  by_cases hcard : l.toFinset.card ≤ 1
  · rw [if_pos ⟨rfl, hcard⟩]
  · have h2 : 2 ≤ l.toFinset.card := by omega
    have hpos := entropyOf_pos l h2
    rw [if_neg (fun hc => hcard hc.2), mutualInfoOf_relabel l f hinj,
      entropyOf_relabel l f hinj, if_neg (ne_of_gt hpos),
      add_self_div_two, div_self (ne_of_gt hpos)]

/-- C5: whenever compare_clusterings succeeds with aligned label lists that
describe identical partitions — the second list is an injective relabelling
of the first, as happens in particular when the two mappings agree on their
common keys — the computed Adjusted Rand Index and Normalized Mutual
Information both equal 1. -/
theorem identical_partitions_score_one (inv1 inv2 : List (String × String))
    (notes : List String) (l1 l2 : List String) (f : String → String)
    (hco : compare_clusterings inv1 inv2 = (notes, Except.ok (l1, l2)))
    (hmap : l2 = l1.map f)
    (hinj : ∀ x ∈ l1, ∀ y ∈ l1, f x = f y → x = y) :
    adjusted_rand_score l1 l2 = 1 ∧ normalized_mutual_info_score l1 l2 = 1 := by
  subst hmap
  exact ⟨adjusted_rand_score_relabel l1 f hinj, nmi_relabel l1 f hinj⟩

theorem identical_partitions_score_one_witness :
    adjusted_rand_score ["0", "0", "1"] ["0", "0", "1"] = 1 ∧
    normalized_mutual_info_score ["0", "0", "1"] ["0", "0", "1"] = 1 := by
  have h := identical_partitions_score_one
    [("a", "0"), ("b", "0"), ("c", "1")] [("a", "0"), ("b", "0"), ("c", "1")]
    [noteCommon 3] ["0", "0", "1"] ["0", "0", "1"] id
    (by rfl) (by rfl) (by decide)
  exact h

/-! ## output_broken_clusters of compare_clusters.py -/

/-- The sorted distinct labels: the order numpy's sort(unique(labels))
gives the contingency matrix axes. -/
def uniqueSorted (l : List String) : List String := sortStrings l.dedup

/-- One contingency row: for ground-truth label a, the count of aligned
positions labelled (a, b), for each distinct label b of the second
clustering in sorted order. -/
def contingencyRow (l1 l2 : List String) (a : String) : List Nat :=
  (uniqueSorted l2).map (fun b => (l1.zip l2).count (a, b))

/-- row.max() / row.sum() over the rationals. -/
def purityQ (row : List Nat) : ℚ := ((row.foldr max 0 : Nat) : ℚ) / (row.sum : ℚ)

/-- gini_helper of compare_clusters.py: 1 - the sum of squared row
fractions. -/
def giniQ (row : List Nat) : ℚ :=
  1 - ((row.map (fun c => ((c : ℚ) / (row.sum : ℚ)) ^ 2)).sum)

/-- scipy.stats.entropy of a count row: the Shannon entropy (natural log)
of the row normalized by its total. -/
noncomputable def rowEntropy (row : List Nat) : ℝ :=
  (row.map (fun c => entTerm c row.sum)).sum

open Classical in
/-- Embeds output_broken_clusters of compare_clusters.py: one report line
(label, entropy, purity, Gini) per ground-truth cluster whose contingency
row has strictly positive entropy, in ascending label order. -/
noncomputable def output_broken_clusters (l1 l2 : List String) :
    List (String × ℝ × ℚ × ℚ) :=
  (uniqueSorted l1).filterMap (fun a =>
    if 0 < rowEntropy (contingencyRow l1 l2 a) then
      some (a, rowEntropy (contingencyRow l1 l2 a),
        purityQ (contingencyRow l1 l2 a), giniQ (contingencyRow l1 l2 a))
    else none)

/-- C6: a ground-truth cluster row appears in the broken-cluster report
exactly when the entropy of its contingency row is strictly positive;
every reported row carries purity = (max column count)/(row total) and
Gini = 1 - sum of squared column fractions; and in the concrete example
where cluster "1" splits its 3 members 2-and-1 while cluster "0" maps onto
a single counterpart, only cluster "1" is reported, with purity 2/3 and
Gini 4/9. -/
theorem broken_cluster_report :
    (∀ l1 l2 a h p g, (a, h, p, g) ∈ output_broken_clusters l1 l2 →
      a ∈ uniqueSorted l1 ∧ 0 < rowEntropy (contingencyRow l1 l2 a) ∧
      h = rowEntropy (contingencyRow l1 l2 a) ∧
      p = purityQ (contingencyRow l1 l2 a) ∧
      g = giniQ (contingencyRow l1 l2 a)) ∧
    (∀ l1 l2 a, a ∈ uniqueSorted l1 →
      0 < rowEntropy (contingencyRow l1 l2 a) →
      (a, rowEntropy (contingencyRow l1 l2 a), purityQ (contingencyRow l1 l2 a),
        giniQ (contingencyRow l1 l2 a)) ∈ output_broken_clusters l1 l2) ∧
    (∃ h, 0 < h ∧
      output_broken_clusters ["0", "0", "1", "1", "1"] ["z", "z", "x", "x", "y"]
        = [("1", h, 2/3, 4/9)]) := by
  refine ⟨?_, ?_, ?_⟩
  · intro l1 l2 a h p g hmem
    rcases List.mem_filterMap.mp hmem with ⟨a0, ha0, heq⟩
    by_cases hpos : 0 < rowEntropy (contingencyRow l1 l2 a0)
    · rw [if_pos hpos] at heq
      rw [Option.some_inj, Prod.mk.injEq, Prod.mk.injEq, Prod.mk.injEq] at heq
      obtain ⟨ha, hh, hp, hg⟩ := heq
      subst ha
      exact ⟨ha0, hpos, hh.symm, hp.symm, hg.symm⟩
    · rw [if_neg hpos] at heq
      cases heq
  · intro l1 l2 a ha hpos
    exact List.mem_filterMap.mpr ⟨a, ha, by rw [if_pos hpos]⟩
  · have hu1 : uniqueSorted ["0", "0", "1", "1", "1"] = ["0", "1"] := by decide
    have hc0 : contingencyRow ["0", "0", "1", "1", "1"] ["z", "z", "x", "x", "y"]
        "0" = [0, 0, 2] := by decide
    have hc1 : contingencyRow ["0", "0", "1", "1", "1"] ["z", "z", "x", "x", "y"]
        "1" = [2, 1, 0] := by decide
    have hrow0 : rowEntropy [0, 0, 2] = 0 := by
      have : rowEntropy [0, 0, 2] = entTerm 0 2 + (entTerm 0 2 + (entTerm 2 2 + 0)) := rfl
      rw [this]
      simp [entTerm, Real.log_one]
    have h1pos : 0 < rowEntropy [2, 1, 0] := by
      have hval : rowEntropy [2, 1, 0] = entTerm 2 3 + (entTerm 1 3 + (entTerm 0 3 + 0)) := rfl
      have h23 := entTerm_pos 2 3 (by norm_num) (by norm_num)
      have h13 := entTerm_pos 1 3 (by norm_num) (by norm_num)
      have h03 : entTerm 0 3 = 0 := by simp [entTerm]
      rw [hval, h03]
      linarith
    refine ⟨rowEntropy [2, 1, 0], h1pos, ?_⟩
    unfold output_broken_clusters
    rw [hu1]
    simp only [List.filterMap_cons, List.filterMap_nil, hc0, hc1, hrow0,
      lt_self_iff_false, if_false, if_pos h1pos]
    rw [show purityQ [2, 1, 0] = 2 / 3 by norm_num [purityQ],
      show giniQ [2, 1, 0] = 4 / 9 by norm_num [giniQ]]

/-! ## convert of make_json_clustering.py -/

/-- Python's str.split() with no argument, over the character list: split
on runs of whitespace, producing no empty tokens (which also subsumes the
preceding line.strip()). -/
def splitWsAux : List Char → List Char → List String
  | [], acc => if acc.isEmpty then [] else [String.mk acc.reverse]
  | c :: cs, acc =>
    if c.isWhitespace then
      if acc.isEmpty then splitWsAux cs []
      else String.mk acc.reverse :: splitWsAux cs []
    else splitWsAux cs (c :: acc)

/-- line.split() of a Python string. -/
def pySplit (s : String) : List String := splitWsAux s.data []

/-- The dict update of convert: append prot to an existing family's list in
place, or add a new binding family ↦ [prot]. -/
def dictAppend (d : List (String × List String)) (k v : String) :
    List (String × List String) :=
  if d.any (fun p => decide (p.1 = k)) then
    d.map (fun p => if p.1 = k then (p.1, p.2 ++ [v]) else p)
  else d ++ [(k, [v])]

def convertAux (cc sc : Nat) :
    List String → List (String × List String) →
      Option (List (String × List String))
  | [], d => some d
  | line :: rest, d =>
    match (pySplit line).get? cc, (pySplit line).get? sc with
    | some family, some prot => convertAux cc sc rest (dictAppend d family prot)
    | _, _ => none

/-- Embeds convert of make_json_clustering.py: each line is split on
whitespace, the token in the cluster-id column keys the dict and the token
in the member column is appended; a line with too few columns raises
IndexError, modelled by `none`. -/
def convert (lines : List String) (cluster_column seq_column : Nat) :
    Option (List (String × List String)) :=
  convertAux cluster_column seq_column lines []

/-- The member tokens of the lines whose cluster-id token is k, in input
line order, duplicates kept. -/
def membersOf (cc sc : Nat) (lines : List String) (k : String) : List String :=
  lines.filterMap (fun line =>
    match (pySplit line).get? cc, (pySplit line).get? sc with
    | some family, some prot => if family = k then some prot else none
    | _, _ => none)

/-- Lookup in a dict of lists, the empty list when the key is absent. -/
def lookupList (d : List (String × List String)) (k : String) : List String :=
  (pyGet d k).getD []

theorem pyGet_appendMap_same (d : List (String × List String)) (k v : String) :
    pyGet (d.map (fun p => if p.1 = k then (p.1, p.2 ++ [v]) else p)) k
      = (pyGet d k).map (fun l => l ++ [v]) := by
  induction d with
  | nil => rfl
  | cons p rest ih =>
      by_cases hp : p.1 = k
      · rw [List.map_cons, if_pos hp, pyGet_cons_of_eq (p.1, p.2 ++ [v]) _ k hp,
          pyGet_cons_of_eq p rest k hp]
        rfl
      · rw [List.map_cons, if_neg hp, pyGet_cons_of_ne p _ k hp,
          pyGet_cons_of_ne p rest k hp]
        exact ih

theorem pyGet_appendMap_other (d : List (String × List String))
    (k' k v : String) (hne : k' ≠ k) :
    pyGet (d.map (fun p => if p.1 = k' then (p.1, p.2 ++ [v]) else p)) k
      = pyGet d k := by
  induction d with
  | nil => rfl
  | cons p rest ih =>
      by_cases hp : p.1 = k'
      · have hpk : ¬ p.1 = k := fun h => hne (hp ▸ h)
        rw [List.map_cons, if_pos hp, pyGet_cons_of_ne (p.1, p.2 ++ [v]) _ k hpk,
          pyGet_cons_of_ne p rest k hpk]
        exact ih
      · rw [List.map_cons, if_neg hp]
        by_cases hpk : p.1 = k
        · rw [pyGet_cons_of_eq p _ k hpk, pyGet_cons_of_eq p rest k hpk]
        · rw [pyGet_cons_of_ne p _ k hpk, pyGet_cons_of_ne p rest k hpk]
          exact ih

theorem pyGet_some_of_any (d : List (String × List String)) (k : String)
    (hany : d.any (fun p => decide (p.1 = k)) = true) :
    ∃ w, pyGet d k = some w := by
  induction d with
  | nil => simp at hany
  | cons p rest ih =>
      by_cases hp : p.1 = k
      · exact ⟨p.2, pyGet_cons_of_eq p rest k hp⟩
      · rw [pyGet_cons_of_ne p rest k hp]
        apply ih
        rcases List.any_eq_true.mp hany with ⟨q, hq, hqk⟩
        rcases List.mem_cons.mp hq with hq | hq
        · exact absurd (of_decide_eq_true hqk) (hq ▸ hp)
        · exact List.any_eq_true.mpr ⟨q, hq, hqk⟩

theorem lookupList_dictAppend_same (d : List (String × List String))
    (k : String) (v : String) :
    lookupList (dictAppend d k v) k = lookupList d k ++ [v] := by
  unfold dictAppend
  by_cases hany : d.any (fun p => decide (p.1 = k)) = true
  · rw [if_pos hany]
    unfold lookupList
    rw [pyGet_appendMap_same]
    obtain ⟨w, hw⟩ := pyGet_some_of_any d k hany
    rw [hw]
    rfl
  · have hf : d.any (fun p => decide (p.1 = k)) = false := by
      cases hc : d.any (fun p => decide (p.1 = k)) with
      | true => exact absurd hc hany
      | false => rfl
    rw [if_neg hany]
    unfold lookupList
    rw [pyGet_append_single, pyGet_none_of_not_any d k hf]
    simp

theorem lookupList_dictAppend_other (d : List (String × List String))
    (k' k : String) (v : String) (hne : k' ≠ k) :
    lookupList (dictAppend d k' v) k = lookupList d k := by
  unfold dictAppend
  by_cases hany : d.any (fun p => decide (p.1 = k')) = true
  · rw [if_pos hany]
    unfold lookupList
    rw [pyGet_appendMap_other d k' k v hne]
  · rw [if_neg hany]
    unfold lookupList
    rw [pyGet_append_single]
    cases hdg : pyGet d k with
    | some w => rfl
    | none => simp [hne]

theorem dictAppend_nonempty (d : List (String × List String)) (k v : String)
    (h : ∀ p ∈ d, p.2 ≠ []) : ∀ p ∈ dictAppend d k v, p.2 ≠ [] := by
  intro p hp
  unfold dictAppend at hp
  by_cases hany : d.any (fun q => decide (q.1 = k)) = true
  · rw [if_pos hany] at hp
    rcases List.mem_map.mp hp with ⟨q, hq, hqe⟩
    by_cases hqk : q.1 = k
    · rw [if_pos hqk] at hqe
      rw [← hqe]
      simp
    · rw [if_neg hqk] at hqe
      exact hqe ▸ h q hq
  · rw [if_neg hany] at hp
    rcases List.mem_append.mp hp with hp | hp
    · exact h p hp
    · rw [List.mem_singleton] at hp
      rw [hp]
      simp

theorem dictAppend_keys (d : List (String × List String)) (k v : String)
    (k0 : String) :
    k0 ∈ (dictAppend d k v).map Prod.fst ↔ k0 ∈ d.map Prod.fst ∨ k0 = k := by
  unfold dictAppend
  by_cases hany : d.any (fun q => decide (q.1 = k)) = true
  · rw [if_pos hany]
    have hk : k ∈ d.map Prod.fst := by
      rcases List.any_eq_true.mp hany with ⟨q, hq, hqk⟩
      exact (of_decide_eq_true hqk) ▸ List.mem_map.mpr ⟨q, hq, rfl⟩
    have hkeys : (d.map (fun p => if p.1 = k then (p.1, p.2 ++ [v]) else p)).map
        Prod.fst = d.map Prod.fst := by
      rw [List.map_map]
      apply List.map_congr_left
      intro p _
      by_cases hp : p.1 = k
      · simp [hp]
      · simp [hp]
    rw [hkeys]
    constructor
    · exact Or.inl
    · rintro (h | h)
      · exact h
      · exact h ▸ hk
  · rw [if_neg hany, List.map_append]
    simp [List.mem_append]

theorem convertAux_spec (cc sc : Nat) (lines : List String)
    (d : List (String × List String))
    (htok : ∀ line ∈ lines, cc < (pySplit line).length ∧
      sc < (pySplit line).length) :
    ∃ res, convertAux cc sc lines d = some res ∧
      (∀ k, lookupList res k = lookupList d k ++ membersOf cc sc lines k) ∧
      (∀ k, k ∈ res.map Prod.fst ↔
        k ∈ d.map Prod.fst ∨ membersOf cc sc lines k ≠ []) ∧
      ((∀ p ∈ d, p.2 ≠ []) → ∀ p ∈ res, p.2 ≠ []) := by
  induction lines generalizing d with
  | nil =>
      refine ⟨d, rfl, ?_, ?_, fun h => h⟩
      · intro k
        simp [membersOf]
      · intro k
        simp [membersOf]
  | cons line rest ih =>
      obtain ⟨hcl, hsl⟩ := htok line (List.mem_cons_self _ _)
      obtain ⟨family, hfam⟩ : ∃ a, (pySplit line).get? cc = some a :=
        ⟨_, List.get?_eq_get hcl⟩
      obtain ⟨prot, hprot⟩ : ∃ a, (pySplit line).get? sc = some a :=
        ⟨_, List.get?_eq_get hsl⟩
      obtain ⟨res, hres, hlook, hkeys, hne⟩ :=
        ih (dictAppend d family prot)
          (fun l hl => htok l (List.mem_cons_of_mem _ hl))
      have hstep : convertAux cc sc (line :: rest) d
          = convertAux cc sc rest (dictAppend d family prot) := by
        rw [convertAux, hfam, hprot]
      have hmem : ∀ k, membersOf cc sc (line :: rest) k =
          (if family = k then [prot] else []) ++ membersOf cc sc rest k := by
        intro k
        unfold membersOf
        simp only [List.filterMap_cons, hfam, hprot]
        by_cases hfk : family = k
        · rw [if_pos hfk, if_pos hfk]
          rfl
        · rw [if_neg hfk, if_neg hfk]
          rfl
      refine ⟨res, hstep ▸ hres, ?_, ?_, ?_⟩
      · intro k
        rw [hlook k, hmem k]
        by_cases hfk : family = k
        · subst hfk
          rw [if_pos rfl, lookupList_dictAppend_same, List.append_assoc,
            List.singleton_append]
        · rw [if_neg hfk, lookupList_dictAppend_other d family k prot hfk,
            List.nil_append]
      · intro k
        rw [hkeys k, dictAppend_keys, hmem k]
        by_cases hfk : family = k
        · subst hfk
          rw [if_pos rfl]
          simp
        · rw [if_neg hfk, List.nil_append]
          constructor
          · rintro ((h | h) | h)
            · exact Or.inl h
            · exact absurd h.symm hfk
            · exact Or.inr h
          · rintro (h | h)
            · exact Or.inl (Or.inl h)
            · exact Or.inr h
      · intro hd
        exact hne (dictAppend_nonempty d family prot hd)

/-- C9: for every two-column input whose lines each hold at least two
whitespace-separated tokens (and column indices 0 or 1), convert succeeds;
in its mapping every cluster-id key carries a non-empty list, each key's
list is exactly the member tokens of its lines in input order with
duplicate lines kept as repeated entries, and the keys are exactly the
cluster ids that occur. -/
theorem convert_mapping (lines : List String) (cc sc : Nat)
    (htok : ∀ line ∈ lines, 2 ≤ (pySplit line).length)
    (hcc : cc < 2) (hsc : sc < 2) :
    ∃ d, convert lines cc sc = some d ∧
      (∀ p ∈ d, p.2 ≠ []) ∧
      (∀ k, lookupList d k = membersOf cc sc lines k) ∧
      (∀ k, k ∈ d.map Prod.fst ↔ membersOf cc sc lines k ≠ []) := by
  obtain ⟨res, hres, hlook, hkeys, hne⟩ := convertAux_spec cc sc lines []
    (fun line hl => ⟨lt_of_lt_of_le hcc (htok line hl),
      lt_of_lt_of_le hsc (htok line hl)⟩)
  refine ⟨res, hres, hne (by simp), ?_, ?_⟩
  · intro k
    rw [hlook k]
    rfl
  · intro k
    rw [hkeys k]
    simp

theorem convert_mapping_witness :
    ∃ d, convert ["g a", "g b", "h c", "g a"] 0 1 = some d ∧
      (∀ p ∈ d, p.2 ≠ []) ∧
      (∀ k, lookupList d k = membersOf 0 1 ["g a", "g b", "h c", "g a"] k) ∧
      (∀ k, k ∈ d.map Prod.fst ↔
        membersOf 0 1 ["g a", "g b", "h c", "g a"] k ≠ []) :=
  convert_mapping ["g a", "g b", "h c", "g a"] 0 1 (by decide) (by decide)
    (by decide)

/-! ## read_nc_scores of compare_nc_scores.py -/

/-- charListLt is irreflexive. -/
theorem charListLt_self (x : List Char) : charListLt x x = false := by
  induction x with
  | nil => rfl
  | cons a as ih =>
      rw [charListLt, ih]
      simp

theorem pyStrLt_self (a : String) : pyStrLt a a = false := charListLt_self a.data

/-- charListLt is asymmetric. -/
theorem charListLt_asymm (x y : List Char) (h : charListLt x y = true) :
    charListLt y x = false := by
  induction x generalizing y with
  | nil =>
      cases y with
      | nil => exact absurd h (by rw [charListLt]; simp)
      | cons b bs => rfl
  | cons a as ih =>
      cases y with
      | nil => exact absurd h (by rw [charListLt]; simp)
      | cons b bs =>
          rw [charListLt] at h ⊢
          simp only [Bool.or_eq_true, Bool.and_eq_true, decide_eq_true_eq] at h
          rcases h with h | ⟨heq, hlt⟩
          · rw [decide_eq_false (by omega : ¬ b.toNat < a.toNat),
              decide_eq_false (by omega : ¬ b.toNat = a.toNat)]
            rfl
          · rw [decide_eq_false (by omega : ¬ b.toNat < a.toNat),
              decide_eq_true (by omega : b.toNat = a.toNat), ih bs hlt]
            rfl

theorem pyStrLt_asymm (a b : String) (h : pyStrLt a b = true) :
    pyStrLt b a = false := charListLt_asymm a.data b.data h

/-- One line of read_nc_scores, given its whitespace-split columns: exactly
three columns or ValueError (`none`); the two identifiers keyed in
ascending order; a line with equal identifiers stores nothing (and float()
is never reached on it). -/
def rnsStep (toVal : String → Option ℚ) (scores : List ((String × String) × ℚ)) :
    List String → Option (List ((String × String) × ℚ))
  | [left, right, val] =>
    if pyStrLt left right then
      (toVal val).map (fun v => pySet scores (left, right) v)
    else if pyStrLt right left then
      (toVal val).map (fun v => pySet scores (right, left) v)
    else some scores
  | _ => none

def rnsAux (toVal : String → Option ℚ) :
    List String → List ((String × String) × ℚ) →
      Option (List ((String × String) × ℚ))
  | [], scores => some scores
  | line :: rest, scores =>
    match rnsStep toVal scores (pySplit line) with
    | some scores2 => rnsAux toVal rest scores2
    | none => none

/-- Embeds read_nc_scores of compare_nc_scores.py, with Python's float()
library conversion abstracted as `toVal` (`none` modelling its
ValueError). -/
def read_nc_scores (toVal : String → Option ℚ) (lines : List String) :
    Option (List ((String × String) × ℚ)) :=
  rnsAux toVal lines []

theorem mem_pySet_cases {κ ν : Type} [DecidableEq κ] (d : List (κ × ν))
    (k : κ) (v : ν) (p : κ × ν) (hp : p ∈ pySet d k v) : p ∈ d ∨ p = (k, v) := by
  unfold pySet at hp
  by_cases hany : d.any (fun q => decide (q.1 = k)) = true
  · rw [if_pos hany] at hp
    rcases List.mem_map.mp hp with ⟨q, hq, hqe⟩
    by_cases hqk : q.1 = k
    · rw [if_pos hqk] at hqe
      exact Or.inr hqe.symm
    · rw [if_neg hqk] at hqe
      exact Or.inl (hqe ▸ hq)
  · rw [if_neg hany] at hp
    rcases List.mem_append.mp hp with hp | hp
    · exact Or.inl hp
    · exact Or.inr (List.mem_singleton.mp hp)

theorem rnsStep_keys_sorted (toVal : String → Option ℚ)
    (scores s2 : List ((String × String) × ℚ)) (cols : List String)
    (hinv : ∀ x y v, ((x, y), v) ∈ scores → pyStrLt x y = true)
    (h : rnsStep toVal scores cols = some s2) :
    ∀ x y v, ((x, y), v) ∈ s2 → pyStrLt x y = true := by
  match cols with
  | [] => exact absurd h (by simp [rnsStep])
  | [a] => exact absurd h (by simp [rnsStep])
  | [a, b] => exact absurd h (by simp [rnsStep])
  | a :: b :: c :: e :: rest => exact absurd h (by simp [rnsStep])
  | [left, right, val] =>
      rw [rnsStep] at h
      by_cases hlr : pyStrLt left right = true
      · rw [if_pos hlr] at h
        cases hv : toVal val with
        | some v =>
            rw [hv, Option.map_some'] at h
            intro x y w hw
            rcases mem_pySet_cases _ _ _ _ ((Option.some_inj.mp h) ▸ hw)
              with hm | hm
            · exact hinv x y w hm
            · rw [Prod.mk.injEq, Prod.mk.injEq] at hm
              rw [hm.1.1, hm.1.2]
              exact hlr
        | none => rw [hv] at h; exact absurd h (by simp)
      · rw [if_neg hlr] at h
        by_cases hrl : pyStrLt right left = true
        · rw [if_pos hrl] at h
          cases hv : toVal val with
          | some v =>
              rw [hv, Option.map_some'] at h
              intro x y w hw
              rcases mem_pySet_cases _ _ _ _ ((Option.some_inj.mp h) ▸ hw)
                with hm | hm
              · exact hinv x y w hm
              · rw [Prod.mk.injEq, Prod.mk.injEq] at hm
                rw [hm.1.1, hm.1.2]
                exact hrl
          | none => rw [hv] at h; exact absurd h (by simp)
        · rw [if_neg hrl] at h
          intro x y w hw
          exact hinv x y w ((Option.some_inj.mp h) ▸ hw)

theorem rnsAux_keys_sorted (toVal : String → Option ℚ) (lines : List String)
    (scores d : List ((String × String) × ℚ))
    (hinv : ∀ x y v, ((x, y), v) ∈ scores → pyStrLt x y = true)
    (h : rnsAux toVal lines scores = some d) :
    ∀ x y v, ((x, y), v) ∈ d → pyStrLt x y = true := by
  induction lines generalizing scores with
  | nil =>
      rw [rnsAux, Option.some_inj] at h
      exact h ▸ hinv
  | cons line rest ih =>
      rw [rnsAux] at h
      cases hs : rnsStep toVal scores (pySplit line) with
      | some s2 =>
          rw [hs] at h
          exact ih s2 (rnsStep_keys_sorted toVal scores s2 _ hinv hs) h
      | none => rw [hs] at h; exact absurd h (by simp)

theorem rnsAux_append (toVal : String → Option ℚ) (xs ys : List String)
    (scores : List ((String × String) × ℚ)) :
    rnsAux toVal (xs ++ ys) scores =
      match rnsAux toVal xs scores with
      | some s2 => rnsAux toVal ys s2
      | none => none := by
  induction xs generalizing scores with
  | nil => rfl
  | cons line rest ih =>
      rw [List.cons_append, rnsAux, rnsAux]
      cases hs : rnsStep toVal scores (pySplit line) with
      | some s2 => exact ih s2
      | none => rfl

/-- C10: read_nc_scores keys every stored score by the lexicographically
ascending pair of the two identifiers — swapping the two identifier
columns of a line changes nothing — silently skips a line whose two
identifiers are equal (no entry, no error raised, float() not consulted),
and a later line with the same unordered pair overwrites the earlier
score. -/
theorem nc_scores_unordered_pairs (toVal : String → Option ℚ) :
    (∀ lines d x y v, read_nc_scores toVal lines = some d →
      ((x, y), v) ∈ d → pyStrLt x y = true) ∧
    (∀ line rest scores a val, pySplit line = [a, a, val] →
      rnsAux toVal (line :: rest) scores = rnsAux toVal rest scores) ∧
    (∀ line1 line2 rest scores a b val, pySplit line1 = [a, b, val] →
      pySplit line2 = [b, a, val] →
      rnsAux toVal (line1 :: rest) scores = rnsAux toVal (line2 :: rest) scores) ∧
    (∀ lines line a b val q d, pySplit line = [a, b, val] →
      pyStrLt a b = true → toVal val = some q →
      read_nc_scores toVal (lines ++ [line]) = some d →
      pyGet d (a, b) = some q) := by
  refine ⟨?_, ?_, ?_, ?_⟩
  · intro lines d x y v h hm
    exact rnsAux_keys_sorted toVal lines [] d (by simp) h x y v hm
  · intro line rest scores a val hsp
    rw [rnsAux, hsp]
    rw [show rnsStep toVal scores [a, a, val] = some scores by
      rw [rnsStep, if_neg (by rw [pyStrLt_self]; simp),
        if_neg (by rw [pyStrLt_self]; simp)]]
  · intro line1 line2 rest scores a b val hsp1 hsp2
    rw [rnsAux, rnsAux, hsp1, hsp2]
    have hsame : rnsStep toVal scores [a, b, val] =
        rnsStep toVal scores [b, a, val] := by
      rw [rnsStep, rnsStep]
      by_cases hab : pyStrLt a b = true
      · rw [if_pos hab, if_neg (by rw [pyStrLt_asymm a b hab]; simp), if_pos hab]
      · by_cases hba : pyStrLt b a = true
        · rw [if_neg hab, if_pos hba, if_pos hba]
        · rw [if_neg hab, if_neg hba, if_neg hba, if_neg hab]
    rw [hsame]
  · intro lines line a b val q d hsp hab hval h
    unfold read_nc_scores at h
    rw [rnsAux_append] at h
    cases hpre : rnsAux toVal lines [] with
    | none => rw [hpre] at h; exact absurd h (by simp)
    | some s2 =>
        rw [hpre] at h
        have hstep : rnsStep toVal s2 (pySplit line) = some (pySet s2 (a, b) q) := by
          rw [hsp, rnsStep, if_pos hab, hval, Option.map_some']
        have h2 : (match rnsStep toVal s2 (pySplit line) with
          | some s3 => rnsAux toVal [] s3
          | none => none) = some d := h
        rw [hstep] at h2
        have h4 : some (pySet s2 (a, b) q) = some d := h2
        rw [Option.some_inj] at h4
        rw [← h4, pyGet_pySet_same]

theorem nc_scores_unordered_pairs_witness :
    (∀ x y v, ((x, y), v) ∈ [(("a", "b"), (2 : ℚ))] → pyStrLt x y = true) ∧
    pyGet [(("a", "b"), (2 : ℚ))] ("a", "b") = some 2 := by
  have hread : read_nc_scores (fun t => if t = "1.5" then some ((3 : ℚ)/2)
      else if t = "2.0" then some 2 else none) ["b a 1.5", "a b 2.0"]
      = some [(("a", "b"), (2 : ℚ))] := by rfl
  constructor
  · intro x y v hm
    exact (nc_scores_unordered_pairs _).1 ["b a 1.5", "a b 2.0"] _ x y v hread hm
  · have h4 := (nc_scores_unordered_pairs _).2.2.2 ["b a 1.5"] "a b 2.0" "a" "b"
      "2.0" 2 _ (by rfl) (by rfl) (by rfl) hread
    exact h4

end NC
